import Mathlib

/-!
Shallow embedding of `src_cpp/elf/distri/client_manager.h` (namespace `elf::cs`):
the client registry `ClientManager`, the per-client record `ClientInfo`, and the
per-thread snapshot `ClientInfo::State`.

Modelling conventions:
* The injected time source `timer_` is a stream `Nat → Nat`; every call of
  `getCurrTimeStamp()` consumes one value (`Timer.tick`), exactly where the
  C++ calls it.
* Timestamps are `uint64`; the only place where wrap-around matters is the
  subtraction in `updateActive` and it is modelled by `sub64`.
* The C++ `assert` failures are modelled as `none` results (`Option`).
* `std::unordered_map<std::string, …>` is modelled as an association list in
  insertion order (a deterministic iteration order; the C++ order is
  unspecified).
* `float` ratios are modelled as exact rationals `ℚ`; all ratio values used by
  the spec (`0.5`, `1.0`, `0.0`) and the small quotients involved are exactly
  representable in `float`, so the comparisons agree.
-/

set_option linter.unusedVariables false

/-- Modelled from the spec: `ThreadState` (defined in `client_manager_def.h`,
which is not under `src/`) is an opaque, equality-comparable snapshot reported
by one worker thread; the only field this core reads is `thread_id`
(`ClientInfo::stateUpdate` bounds-checks it and uses it as the slot index).
`payload` stands for the rest of the opaque value. -/
structure ThreadState where
  thread_id : Int
  payload : Nat
deriving DecidableEq

/-- Modelled from the spec: the default-constructed `ThreadState` stored in a
fresh `ClientInfo::State`; its concrete field values are never inspected by the
core beyond equality, so any fixed value is faithful. -/
instance : Inhabited ThreadState := ⟨⟨-1, 0⟩⟩

/-- `ClientType` is an integer role ordinal (`client_manager_def.h`). -/
abbrev ClientType := Int

/-- Modelled from the spec: the unassigned/invalid sentinel used by
`alloc_type` and as the initial `type_` value (`type_ = -1` in the source). -/
def CLIENT_INVALID : ClientType := -1

/-- The injected time source `timer_`, modelled as a stream: the `k`-th call of
`getCurrTimeStamp()` returns `src k`. -/
structure Timer where
  src : Nat → Nat
  k : Nat

/-- One call of `mgr_.getCurrTimeStamp()` (i.e. `timer_()`). -/
def Timer.tick (tm : Timer) : Nat × Timer :=
  (tm.src tm.k, ⟨tm.src, tm.k + 1⟩)

def U64 : Nat := 2 ^ 64

/-- `uint64` subtraction `a - b` with wrap-around, as in
`mgr_.getCurrTimeStamp() - last_update_`. -/
def sub64 (a b : Nat) : Nat :=
  (a % U64 + (U64 - b % U64)) % U64

/-- `ClientInfo::State`: the last reported snapshot of one worker thread and
the timestamp of its last change. -/
structure ClientInfo.State where
  last_state_ : ThreadState
  last_state_update_ : Nat
deriving DecidableEq

/-- `ClientInfo::State::StateUpdate`: compare the incoming snapshot with the
stored one; on change, store it, stamp the current time and return `true`,
otherwise return `false` and mutate nothing. -/
def ClientInfo.State.StateUpdate (s : ClientInfo.State) (tm : Timer) (ts : ThreadState) :
    Bool × ClientInfo.State × Timer :=
  if s.last_state_ ≠ ts then
    let r := tm.tick
    (true, ⟨ts, r.1⟩, r.2)
  else
    (false, s, tm)

/-- `ClientInfo::ClientChange`. -/
inductive ClientInfo.ClientChange where
  | ALIVE2DEAD
  | DEAD2ALIVE
  | ALIVE
  | DEAD
deriving DecidableEq

/-- `ClientInfo`: one connected worker. -/
structure ClientInfo where
  identity_ : String
  type_ : ClientType
  max_delay_sec_ : Nat
  seq_ : Int
  active_ : Bool
  last_update_ : Nat
  threads_ : List ClientInfo.State
deriving DecidableEq

/-- The loop in the `ClientInfo` constructor: `num_threads` fresh
`ClientInfo::State`s, each stamping `getCurrTimeStamp()` at construction, in
slot order. -/
def ClientInfo.mkStates (tm : Timer) : Nat → List ClientInfo.State × Timer
  | 0 => ([], tm)
  | n + 1 =>
    let r := tm.tick
    let rest := ClientInfo.mkStates r.2 n
    (⟨default, r.1⟩ :: rest.1, rest.2)

/-- The `ClientInfo` constructor: build the per-thread slots, then stamp
`last_update_ = getCurrTimeStamp()`; `type_` starts at the invalid sentinel,
`seq_ = 0`, `active_ = true`. -/
def ClientInfo.create (id : String) (num_threads : Nat) (max_delay_sec : Nat) (tm : Timer) :
    ClientInfo × Timer :=
  let s := ClientInfo.mkStates tm num_threads
  let r := s.2.tick
  (⟨id, CLIENT_INVALID, max_delay_sec, 0, true, r.1, s.1⟩, r.2)

/-- `ClientInfo::set_type`. -/
def ClientInfo.set_type (c : ClientInfo) (t : ClientType) : ClientInfo :=
  { c with type_ := t }

/-- `ClientInfo::stateUpdate`: bounds-check `ts.thread_id` (the `assert` is
modelled as `none`), forward to the slot's `StateUpdate`, and on change stamp
`last_update_ = getCurrTimeStamp()` (a second timer call). -/
def ClientInfo.stateUpdate (c : ClientInfo) (tm : Timer) (ts : ThreadState) :
    Option (ClientInfo × Timer) :=
  if 0 ≤ ts.thread_id ∧ ts.thread_id < (c.threads_.length : Int) then
    match c.threads_[ts.thread_id.toNat]? with
    | none => none
    | some st =>
      let r := st.StateUpdate tm ts
      let c1 := { c with threads_ := c.threads_.set ts.thread_id.toNat r.2.1 }
      if r.1 then
        let r2 := r.2.2.tick
        some ({ c1 with last_update_ := r2.1 }, r2.2)
      else
        some (c1, r.2.2)
  else
    none

/-- The body of `ClientInfo::updateActive` after the single
`getCurrTimeStamp()` call, as a function of the value `now` that call
returned. -/
def ClientInfo.updateActiveAt (c : ClientInfo) (now : Nat) :
    ClientInfo.ClientChange × ClientInfo :=
  let curr_active : Bool := decide (sub64 now c.last_update_ < c.max_delay_sec_)
  if c.active_ then
    if curr_active then (ClientInfo.ClientChange.ALIVE, c)
    else (ClientInfo.ClientChange.ALIVE2DEAD, { c with active_ := false })
  else
    if curr_active then (ClientInfo.ClientChange.DEAD2ALIVE, { c with active_ := true })
    else (ClientInfo.ClientChange.DEAD, c)

/-- `ClientInfo::updateActive`: read the clock once, then run the four-case
transition on the cached `active_` flag. -/
def ClientInfo.updateActive (c : ClientInfo) (tm : Timer) :
    ClientInfo.ClientChange × ClientInfo × Timer :=
  let r := tm.tick
  let u := c.updateActiveAt r.1
  (u.1, u.2, r.2)

/-- Modelled from the spec: `ClientManagerOptions` (from
`client_manager_def.h`): ratio targets and hard caps per type, the per-record
thread count and the inactivity timeout. `float` ratios are modelled as `ℚ`. -/
structure ClientManagerOptions where
  client_type_ratios : List ℚ
  client_type_limits : List Int
  max_num_threads : Nat
  client_max_delay_sec : Nat
deriving DecidableEq

/-- `ClientManager`: the registry. `clients_` models the
`unordered_map<string, unique_ptr<ClientInfo>>` as an association list in
insertion order; `num_clients_` and `n_` are the per-type and total active
counters. -/
structure ClientManager where
  options_ : ClientManagerOptions
  clients_ : List (String × ClientInfo)
  num_clients_ : List Int
  n_ : Int
deriving DecidableEq

/-- The constructor: `num_clients_` is sized to the ratio list and zeroed; the
`assert` on equal option lengths is modelled as `none`. -/
def mkClientManager (options : ClientManagerOptions) : Option ClientManager :=
  if options.client_type_ratios.length = options.client_type_limits.length then
    some ⟨options, [], List.replicate options.client_type_ratios.length 0, 0⟩
  else
    none

/-- The ratio `static_cast<float>(num_clients_[t]) / n_` computed by
`alloc_type` and `info()`, as an exact rational. -/
def ClientManager.curr_ratio (m : ClientManager) (t : Nat) : ℚ :=
  (m.num_clients_.getD t 0 : ℚ) / (m.n_ : ℚ)

/-- Type `t` is strictly under its ratio target (membership in `pri0`). -/
def ClientManager.underRatio (m : ClientManager) (t : Nat) : Prop :=
  m.curr_ratio t < m.options_.client_type_ratios.getD t 0

/-- Type `t` is strictly under its hard cap (membership in `pri1`). -/
def ClientManager.underLimit (m : ClientManager) (t : Nat) : Prop :=
  m.num_clients_.getD t 0 < m.options_.client_type_limits.getD t 0

instance (m : ClientManager) (t : Nat) : Decidable (m.underRatio t) := by
  unfold ClientManager.underRatio
  infer_instance

instance (m : ClientManager) (t : Nat) : Decidable (m.underLimit t) := by
  unfold ClientManager.underLimit
  infer_instance

/-- The vector `pri0` built by `alloc_type`: the under-ratio types in ascending
ordinal order. -/
def ClientManager.pri0 (m : ClientManager) : List Nat :=
  (List.range m.num_clients_.length).filter fun t => decide (m.underRatio t)

/-- The vector `pri1` built by `alloc_type`: the under-limit types in ascending
ordinal order. -/
def ClientManager.pri1 (m : ClientManager) : List Nat :=
  (List.range m.num_clients_.length).filter fun t => decide (m.underLimit t)

/-- The counter increments `num_clients_[t_choice]++; n_++` of `alloc_type`. -/
def ClientManager.bumpCount (m : ClientManager) (t : Nat) : ClientManager :=
  { m with
    num_clients_ := m.num_clients_.set t (m.num_clients_.getD t 0 + 1)
    n_ := m.n_ + 1 }

/-- `ClientManager::alloc_type`. Note the source's early `return 0` when
`n_ == 0` skips the counter increments entirely; otherwise the first entry of
`pri0` (else of `pri1`) is chosen and the counters are bumped; the
`assert(t_choice != CLIENT_INVALID)` is modelled as `none`. -/
def ClientManager.alloc_type (m : ClientManager) : Option (ClientType × ClientManager) :=
  if m.n_ = 0 then
    some (0, m)
  else
    match m.pri0.head? with
    | some t => some ((t : Int), m.bumpCount t)
    | none =>
      match m.pri1.head? with
      | some t => some ((t : Int), m.bumpCount t)
      | none => none

/-- `ClientManager::dealloc_type`; the bounds `assert` is modelled as `none`. -/
def ClientManager.dealloc_type (m : ClientManager) (t : ClientType) : Option ClientManager :=
  if 0 ≤ t ∧ t < (m.num_clients_.length : Int) then
    some { m with
      num_clients_ := m.num_clients_.set t.toNat (m.num_clients_.getD t.toNat 0 - 1)
      n_ := m.n_ - 1 }
  else
    none

/-- Write back a mutated record into the map (in C++ the record is mutated in
place through a reference). -/
def updateAssoc (id : String) (c : ClientInfo) :
    List (String × ClientInfo) → List (String × ClientInfo) :=
  List.map fun p => if p.1 = id then (id, c) else p

/-- `ClientManager::_getClient`: look up the identity; on a miss, construct a
fresh record (consuming `max_num_threads + 1` timer calls) and assign it
`alloc_type()`. -/
def ClientManager._getClient (m : ClientManager) (tm : Timer) (id : String) :
    Option (ClientManager × Timer) :=
  match m.clients_.lookup id with
  | some _ => some (m, tm)
  | none =>
    let r := ClientInfo.create id m.options_.max_num_threads m.options_.client_max_delay_sec tm
    match m.alloc_type with
    | none => none
    | some a =>
      some ({ a.2 with clients_ := a.2.clients_ ++ [(id, r.1.set_type a.1)] }, r.2)

/-- The loop `for (const auto& s : states) info.stateUpdate(s.second);` —
note only the mapped value `s.second` is used, never the key `s.first`. -/
def applyThreadUpdates (c : ClientInfo) (tm : Timer) :
    List (Int × ThreadState) → Option (ClientInfo × Timer)
  | [] => some (c, tm)
  | s :: rest =>
    match c.stateUpdate tm s.2 with
    | none => none
    | some r => applyThreadUpdates r.1 r.2 rest

/-- Intermediate result of the sweep loop in `ClientManager::updateClients`. -/
structure SweepResult where
  clients : List (String × ClientInfo)
  mgr : ClientManager
  tmr : Timer
  newly_dead : List String
  newly_alive : List String

/-- The loop of `ClientManager::updateClients`: call `updateActive` on each
record in map order; on `ALIVE2DEAD` deallocate the record's type, on
`DEAD2ALIVE` allocate a fresh type and assign it. -/
def ClientManager.sweep (m : ClientManager) (tm : Timer) :
    List (String × ClientInfo) → Option SweepResult
  | [] => some ⟨[], m, tm, [], []⟩
  | p :: rest =>
    let u := p.2.updateActive tm
    match u.1 with
    | ClientInfo.ClientChange.ALIVE2DEAD =>
      match m.dealloc_type u.2.1.type_ with
      | none => none
      | some m1 =>
        (m1.sweep u.2.2 rest).map fun q =>
          { q with clients := (p.1, u.2.1) :: q.clients, newly_dead := p.1 :: q.newly_dead }
    | ClientInfo.ClientChange.DEAD2ALIVE =>
      match m.alloc_type with
      | none => none
      | some a =>
        (a.2.sweep u.2.2 rest).map fun q =>
          { q with
            clients := (p.1, u.2.1.set_type a.1) :: q.clients
            newly_alive := p.1 :: q.newly_alive }
    | _ =>
      (m.sweep u.2.2 rest).map fun q => { q with clients := (p.1, u.2.1) :: q.clients }

/-- `ClientManager::updateClients`: sweep all records; when at least one
transition occurred, the log line reads the clock once more. -/
def ClientManager.updateClients (m : ClientManager) (tm : Timer) :
    Option (ClientManager × Timer) :=
  match m.sweep tm m.clients_ with
  | none => none
  | some q =>
    let m1 := { q.mgr with clients_ := q.clients }
    if q.newly_dead.isEmpty && q.newly_alive.isEmpty then
      some (m1, q.tmr)
    else
      some (m1, q.tmr.tick.2)

/-- `ClientManager::updateStates`: locate or create the record, apply every
update in the heartbeat, then run the global sweep. -/
def ClientManager.updateStates (m : ClientManager) (tm : Timer) (id : String)
    (states : List (Int × ThreadState)) : Option (ClientManager × Timer) :=
  match m._getClient tm id with
  | none => none
  | some g =>
    match g.1.clients_.lookup id with
    | none => none
    | some c =>
      match applyThreadUpdates c g.2 states with
      | none => none
      | some r =>
        let m2 := { g.1 with clients_ := updateAssoc id r.1 g.1.clients_ }
        m2.updateClients r.2

/-- `ClientManager::getClientC`: read-only lookup, `nullptr` on a miss. -/
def ClientManager.getClientC (m : ClientManager) (id : String) : Option ClientInfo :=
  m.clients_.lookup id

/-- `ClientManager::setClientTypeRatio`. -/
def ClientManager.setClientTypeRatio (m : ClientManager) (ratio : List ℚ) : ClientManager :=
  { m with options_ := { m.options_ with client_type_ratios := ratio } }

/-- The public operations of the registry, as named by the spec:
`ingestHeartbeat` (= `updateStates`), `getRecord` (= `getClientC`),
`setTypeRatios` (= `setClientTypeRatio`). -/
inductive Op where
  | updateStates (id : String) (states : List (Int × ThreadState))
  | getClientC (id : String)
  | setClientTypeRatio (ratio : List ℚ)

/-- Run one public operation. -/
def ClientManager.runOp (m : ClientManager) (tm : Timer) : Op → Option (ClientManager × Timer)
  | Op.updateStates id states => m.updateStates tm id states
  | Op.getClientC _ => some (m, tm)
  | Op.setClientTypeRatio ratio => some (m.setClientTypeRatio ratio, tm)

/-- Run a sequence of public operations. -/
def ClientManager.runOps (m : ClientManager) (tm : Timer) :
    List Op → Option (ClientManager × Timer)
  | [] => some (m, tm)
  | op :: ops =>
    match m.runOp tm op with
    | none => none
    | some r => r.1.runOps r.2 ops

/-- The number of records whose cached `active_` flag is `true`. -/
def ClientManager.countActive (m : ClientManager) : Nat :=
  (m.clients_.filter fun p => p.2.active_).length

/-- The sum of the per-type active counters. -/
def ClientManager.sumCounts (m : ClientManager) : Int :=
  m.num_clients_.sum

/-! ### General helper lemmas -/

theorem U64_val : U64 = 18446744073709551616 := by
  norm_num [U64]

/-- `uint64` subtraction coincides with truncated subtraction when no
wrap-around occurs. -/
theorem sub64_eq_sub {a b : Nat} (hba : b ≤ a) (ha : a < U64) : sub64 a b = a - b := by
  have hu := U64_val
  have hb : b < U64 := lt_of_le_of_lt hba ha
  unfold sub64
  rw [Nat.mod_eq_of_lt ha, Nat.mod_eq_of_lt hb]
  have h1 : a + (U64 - b) = (a - b) + U64 := by omega
  rw [h1, Nat.add_mod_right, Nat.mod_eq_of_lt (by omega)]

/-- The head of a filtered interval `[k, k+n)` is its least element satisfying
the predicate. -/
theorem head_filter_range'_eq_some (p : Nat → Bool) :
    ∀ (n k t : Nat),
      (((List.range' k n).filter p).head? = some t) ↔
        (k ≤ t ∧ t < k + n ∧ p t = true ∧ ∀ s, k ≤ s → s < t → p s = false) := by
  intro n
  induction n with
  | zero =>
    intro k t
    constructor
    · intro h
      simp [List.range'_zero] at h
    · rintro ⟨h1, h2, -, -⟩
      exact absurd h2 (by omega)
  | succ n ih =>
    intro k t
    rw [List.range'_succ]
    cases hpk : p k with
    | true =>
      rw [List.filter_cons_of_pos hpk]
      simp only [List.head?_cons, Option.some.injEq]
      constructor
      · intro h
        subst h
        exact ⟨Nat.le_refl k, by omega, hpk, fun s hs1 hs2 => absurd hs1 (by omega)⟩
      · rintro ⟨h1, h2, h3, h4⟩
        by_contra hne
        have hlt : k < t := by omega
        have hfalse := h4 k (Nat.le_refl k) hlt
        rw [hpk] at hfalse
        exact Bool.noConfusion hfalse
    | false =>
      rw [List.filter_cons_of_neg (by simp [hpk])]
      rw [ih (k + 1) t]
      constructor
      · rintro ⟨h1, h2, h3, h4⟩
        refine ⟨by omega, by omega, h3, ?_⟩
        intro s hs1 hs2
        rcases Nat.eq_or_lt_of_le hs1 with he | hl
        · rw [← he]
          exact hpk
        · exact h4 s (by omega) hs2
      · rintro ⟨h1, h2, h3, h4⟩
        have ht : k + 1 ≤ t := by
          rcases Nat.eq_or_lt_of_le h1 with he | hl
          · exfalso
            rw [← he] at h3
            rw [h3] at hpk
            exact Bool.noConfusion hpk
          · omega
        exact ⟨ht, by omega, h3, fun s hs1 hs2 => h4 s (by omega) hs2⟩

/-- The filtered interval `[k, k+n)` is empty exactly when no element
satisfies the predicate. -/
theorem head_filter_range'_eq_none (p : Nat → Bool) :
    ∀ (n k : Nat),
      (((List.range' k n).filter p).head? = none) ↔
        ∀ s, k ≤ s → s < k + n → p s = false := by
  intro n
  induction n with
  | zero =>
    intro k
    simp only [List.range'_zero, List.filter_nil, List.head?_nil, true_iff]
    intro s h1 h2
    exact absurd h2 (by omega)
  | succ n ih =>
    intro k
    rw [List.range'_succ]
    cases hpk : p k with
    | true =>
      rw [List.filter_cons_of_pos hpk]
      simp only [List.head?_cons]
      constructor
      · intro h
        exact Option.noConfusion h
      · intro h
        have hf := h k (Nat.le_refl k) (by omega)
        rw [hpk] at hf
        exact Bool.noConfusion hf
    | false =>
      rw [List.filter_cons_of_neg (by simp [hpk])]
      rw [ih (k + 1)]
      constructor
      · intro h s hs1 hs2
        rcases Nat.eq_or_lt_of_le hs1 with he | hl
        · rw [← he]
          exact hpk
        · exact h s (by omega) (by omega)
      · intro h s hs1 hs2
        exact h s (by omega) (by omega)

/-- Head of a filtered `range n`: the least `t < n` satisfying the predicate. -/
theorem head_filter_range_eq_some (p : Nat → Bool) (n t : Nat) :
    (((List.range n).filter p).head? = some t) ↔
      (t < n ∧ p t = true ∧ ∀ s, s < t → p s = false) := by
  rw [List.range_eq_range', head_filter_range'_eq_some]
  constructor
  · rintro ⟨-, h2, h3, h4⟩
    exact ⟨by omega, h3, fun s hs => h4 s (Nat.zero_le s) hs⟩
  · rintro ⟨h2, h3, h4⟩
    exact ⟨Nat.zero_le t, by omega, h3, fun s hs1 hs2 => h4 s hs2⟩

/-- A filtered `range n` is empty exactly when no `t < n` satisfies the
predicate. -/
theorem head_filter_range_eq_none (p : Nat → Bool) (n : Nat) :
    (((List.range n).filter p).head? = none) ↔ ∀ s, s < n → p s = false := by
  rw [List.range_eq_range', head_filter_range'_eq_none]
  constructor
  · intro h s hs
    exact h s (Nat.zero_le s) (by omega)
  · intro h s hs1 hs2
    exact h s (by omega)

/-! ### C4: the liveness state machine `ClientInfo::updateActive` -/

/-- C4. With `max_delay_sec_ = 300` and `last_update_ = T`, an active record
reports `ALIVE` (unchanged) at `now = T + 299`, flips to dead with
`ALIVE2DEAD` at `now = T + 300`, reports `DEAD` on every later sweep with no
new activity; any dead record whose activity timestamp has become recent again
(as a changed heartbeat does, stamping `last_update_` with the current time)
reports `DEAD2ALIVE` and flips back; and in general the transition output is
determined by the cached flag and the predicate
`(now - last_update_) < max_delay_sec_`. -/
theorem c4_liveness_state_machine (c : ClientInfo) (T : Nat)
    (hdelay : c.max_delay_sec_ = 300) (hlast : c.last_update_ = T)
    (hactive : c.active_ = true) (hT : T + 300 < U64) :
    ((c.updateActiveAt (T + 299)).1 = ClientInfo.ClientChange.ALIVE
      ∧ (c.updateActiveAt (T + 299)).2 = c)
    ∧ ((c.updateActiveAt (T + 300)).1 = ClientInfo.ClientChange.ALIVE2DEAD
      ∧ (c.updateActiveAt (T + 300)).2.active_ = false
      ∧ (c.updateActiveAt (T + 300)).2.last_update_ = T)
    ∧ (∀ now, T + 300 ≤ now → now < U64 →
        ((c.updateActiveAt (T + 300)).2.updateActiveAt now).1
          = ClientInfo.ClientChange.DEAD)
    ∧ (∀ d : ClientInfo, d.active_ = false →
        ∀ now, sub64 now d.last_update_ < d.max_delay_sec_ →
          (d.updateActiveAt now).1 = ClientInfo.ClientChange.DEAD2ALIVE
          ∧ (d.updateActiveAt now).2.active_ = true)
    ∧ (∀ (d : ClientInfo) (tm : Timer) (ts : ThreadState) (d' : ClientInfo)
          (tm' : Timer) (st : ClientInfo.State),
        d.stateUpdate tm ts = some (d', tm') →
        d.threads_[ts.thread_id.toNat]? = some st → st.last_state_ ≠ ts →
        d'.last_update_ = tm.src (tm.k + 1) ∧ d'.active_ = d.active_)
    ∧ (∀ (d : ClientInfo) (now : Nat),
        (d.updateActiveAt now).1 =
          (if d.active_ then
            (if sub64 now d.last_update_ < d.max_delay_sec_ then
              ClientInfo.ClientChange.ALIVE
             else ClientInfo.ClientChange.ALIVE2DEAD)
           else
            (if sub64 now d.last_update_ < d.max_delay_sec_ then
              ClientInfo.ClientChange.DEAD2ALIVE
             else ClientInfo.ClientChange.DEAD))) := by
  have h299 : sub64 (T + 299) T = 299 := by
    rw [sub64_eq_sub (by omega) (by omega)]
    omega
  have h300 : sub64 (T + 300) T = 300 := by
    rw [sub64_eq_sub (by omega) hT]
    omega
  have hdead : (c.updateActiveAt (T + 300)).2 = { c with active_ := false } := by
    simp [ClientInfo.updateActiveAt, hdelay, hlast, hactive, h300]
  refine ⟨?_, ?_, ?_, ?_, ?_, ?_⟩
  · constructor
    · simp [ClientInfo.updateActiveAt, hdelay, hlast, hactive, h299]
    · simp [ClientInfo.updateActiveAt, hdelay, hlast, hactive, h299]
  · refine ⟨?_, ?_, ?_⟩
    · simp [ClientInfo.updateActiveAt, hdelay, hlast, hactive, h300]
    · rw [hdead]
    · rw [hdead]
      exact hlast
  · intro now h1 h2
    rw [hdead]
    have hs : sub64 now T = now - T := sub64_eq_sub (by omega) h2
    have hge : ¬ (now - T < 300) := by omega
    simp [ClientInfo.updateActiveAt, hdelay, hlast, hs, hge]
  · intro d hd now hnow
    constructor
    · simp [ClientInfo.updateActiveAt, hd, hnow]
    · simp [ClientInfo.updateActiveAt, hd, hnow]
  · intro d tm ts d' tm' st hup hst hne
    by_cases hb : 0 ≤ ts.thread_id ∧ ts.thread_id < (d.threads_.length : Int)
    · simp only [ClientInfo.stateUpdate, if_pos hb, hst, ClientInfo.State.StateUpdate,
        Timer.tick] at hup
      rw [if_pos hne] at hup
      simp only [Option.some.injEq, Prod.mk.injEq] at hup
      obtain ⟨rfl, -⟩ := hup
      exact ⟨rfl, rfl⟩
    · rw [ClientInfo.stateUpdate, if_neg hb] at hup
      exact Option.noConfusion hup
  · intro d now
    by_cases hd : d.active_ <;> by_cases hcur : sub64 now d.last_update_ < d.max_delay_sec_ <;>
      simp [ClientInfo.updateActiveAt, hd, hcur]

/-- Concrete input for the C4 witness. -/
def c4W : ClientInfo := ⟨"w", 0, 300, 0, true, 1000, []⟩

/-- Witness for C4 at `T = 1000`. -/
theorem c4_liveness_state_machine_witness :
    (c4W.updateActiveAt 1299).1 = ClientInfo.ClientChange.ALIVE
    ∧ (c4W.updateActiveAt 1300).1 = ClientInfo.ClientChange.ALIVE2DEAD
    ∧ ((c4W.updateActiveAt 1300).2.updateActiveAt 1600).1
        = ClientInfo.ClientChange.DEAD := by
  have h := c4_liveness_state_machine c4W 1000 rfl rfl rfl (by rw [U64_val]; omega)
  exact ⟨h.1.1, h.2.1.1, h.2.2.1 1600 (by omega) (by rw [U64_val]; omega)⟩

/-! ### C6: `ClientInfo::State::StateUpdate` change detection -/

/-- C6. `StateUpdate` returns `true`, stores the new snapshot and stamps
`last_state_update_` with the current time exactly when the incoming
`ThreadState` differs by value equality from the stored one; when equal it
returns `false` and mutates nothing (neither the stored state nor the clock),
so a second consecutive update with the same value returns `false` and leaves
everything unchanged. -/
theorem c6_state_update_change_detection (s : ClientInfo.State) (tm : Timer)
    (ts : ThreadState) :
    ((s.StateUpdate tm ts).1 = true ↔ s.last_state_ ≠ ts)
    ∧ (s.last_state_ ≠ ts →
        (s.StateUpdate tm ts).2.1.last_state_ = ts
        ∧ (s.StateUpdate tm ts).2.1.last_state_update_ = tm.src tm.k
        ∧ (s.StateUpdate tm ts).2.2 = ⟨tm.src, tm.k + 1⟩)
    ∧ (s.last_state_ = ts → (s.StateUpdate tm ts).2.1 = s ∧ (s.StateUpdate tm ts).2.2 = tm)
    ∧ ((s.StateUpdate tm ts).2.1.StateUpdate (s.StateUpdate tm ts).2.2 ts).1 = false
    ∧ ((s.StateUpdate tm ts).2.1.StateUpdate (s.StateUpdate tm ts).2.2 ts).2.1
        = (s.StateUpdate tm ts).2.1
    ∧ ((s.StateUpdate tm ts).2.1.StateUpdate (s.StateUpdate tm ts).2.2 ts).2.2
        = (s.StateUpdate tm ts).2.2 := by
  by_cases h : s.last_state_ = ts
  · refine ⟨?_, ?_, ?_, ?_, ?_, ?_⟩ <;>
      simp [ClientInfo.State.StateUpdate, Timer.tick, h]
  · refine ⟨?_, ?_, ?_, ?_, ?_, ?_⟩ <;>
      simp [ClientInfo.State.StateUpdate, Timer.tick, h]

/-- Concrete inputs for the C6 witness. -/
def c6Ws : ClientInfo.State := ⟨⟨0, 1⟩, 500⟩

/-- Concrete timer for the C6 witness. -/
def c6Wtm : Timer := ⟨fun _ => 1000, 0⟩

/-- Concrete snapshot for the C6 witness. -/
def c6Wts : ThreadState := ⟨0, 2⟩

/-- Witness for C6: a real change reports `true`; the immediate repeat with the
same value reports `false` and changes nothing. -/
theorem c6_state_update_change_detection_witness :
    (c6Ws.StateUpdate c6Wtm c6Wts).1 = true
    ∧ ((c6Ws.StateUpdate c6Wtm c6Wts).2.1.StateUpdate
        (c6Ws.StateUpdate c6Wtm c6Wts).2.2 c6Wts).1 = false
    ∧ ((c6Ws.StateUpdate c6Wtm c6Wts).2.1.StateUpdate
        (c6Ws.StateUpdate c6Wtm c6Wts).2.2 c6Wts).2.1
        = (c6Ws.StateUpdate c6Wtm c6Wts).2.1 := by
  have h := c6_state_update_change_detection c6Ws c6Wtm c6Wts
  exact ⟨h.1.mpr (by decide), h.2.2.2.1, h.2.2.2.2.1⟩

/-! ### C3: the choice made by `ClientManager::alloc_type` -/

/-- C3. The allocation policy returns type `0` whenever the total active count
is `0`; otherwise the lowest-ordinal type strictly under its ratio target if
one exists; otherwise the lowest-ordinal type strictly under its hard cap; and
when neither set is non-empty it faults (`assert`) instead of returning a
type. -/
theorem c3_alloc_type_policy (m : ClientManager) :
    (m.n_ = 0 → m.alloc_type = some (0, m))
    ∧ (∀ t : Nat, m.n_ ≠ 0 → t < m.num_clients_.length → m.underRatio t →
        (∀ s, s < t → ¬ m.underRatio s) →
        m.alloc_type = some ((t : Int), m.bumpCount t))
    ∧ (∀ t : Nat, m.n_ ≠ 0 → (∀ s, s < m.num_clients_.length → ¬ m.underRatio s) →
        t < m.num_clients_.length → m.underLimit t → (∀ s, s < t → ¬ m.underLimit s) →
        m.alloc_type = some ((t : Int), m.bumpCount t))
    ∧ (m.n_ ≠ 0 → (∀ s, s < m.num_clients_.length → ¬ m.underRatio s) →
        (∀ s, s < m.num_clients_.length → ¬ m.underLimit s) →
        m.alloc_type = none) := by
  refine ⟨?_, ?_, ?_, ?_⟩
  · intro hn
    rw [ClientManager.alloc_type, if_pos hn]
  · intro t hn ht hur hmin
    have hp0 : m.pri0.head? = some t := by
      rw [ClientManager.pri0, head_filter_range_eq_some]
      exact ⟨ht, decide_eq_true hur, fun s hs => decide_eq_false (hmin s hs)⟩
    rw [ClientManager.alloc_type, if_neg hn, hp0]
  · intro t hn hnr ht hul hmin
    have hp0 : m.pri0.head? = none := by
      rw [ClientManager.pri0, head_filter_range_eq_none]
      exact fun s hs => decide_eq_false (hnr s hs)
    have hp1 : m.pri1.head? = some t := by
      rw [ClientManager.pri1, head_filter_range_eq_some]
      exact ⟨ht, decide_eq_true hul, fun s hs => decide_eq_false (hmin s hs)⟩
    rw [ClientManager.alloc_type, if_neg hn, hp0, hp1]
  · intro hn hnr hnl
    have hp0 : m.pri0.head? = none := by
      rw [ClientManager.pri0, head_filter_range_eq_none]
      exact fun s hs => decide_eq_false (hnr s hs)
    have hp1 : m.pri1.head? = none := by
      rw [ClientManager.pri1, head_filter_range_eq_none]
      exact fun s hs => decide_eq_false (hnl s hs)
    rw [ClientManager.alloc_type, if_neg hn, hp0, hp1]

/-- Registry state for the C3 witness: counts `[1, 0]`, total `1`, ratios
`[1/2, 1/2]`; type `1` is the least under-ratio type. -/
def c3W : ClientManager := ⟨⟨[1/2, 1/2], [100, 100], 1, 300⟩, [], [1, 0], 1⟩

/-- Witness for C3: on `c3W` the policy picks type `1` (the least under-ratio
ordinal) and bumps its counters. -/
theorem c3_alloc_type_policy_witness :
    c3W.alloc_type = some ((1 : Int), c3W.bumpCount 1) := by
  have h1 : c3W.underRatio 1 := by
    norm_num [ClientManager.underRatio, ClientManager.curr_ratio, c3W]
  have h0 : ¬ c3W.underRatio 0 := by
    norm_num [ClientManager.underRatio, ClientManager.curr_ratio, c3W]
  refine (c3_alloc_type_policy c3W).2.1 1 (by decide) (by decide) h1 ?_
  intro s hs
  have hs0 : s = 0 := by omega
  rw [hs0]
  exact h0

/-! ### C2: limits do not constrain the under-ratio choice -/

/-- Registry state refuting C2: ratios `[1, 0]`, limits `[1, 100]`, counts
`[1, 1]`, total `2`. Type `0` has reached its limit yet is under ratio
(`1/2 < 1`). -/
def c2W : ClientManager := ⟨⟨[1, 0], [1, 100], 1, 300⟩, [], [1, 1], 2⟩

/-- C2 counterexample: the policy chooses type `0` even though its active
count has reached its configured limit, because the under-ratio list `pri0`
never consults the limits. -/
theorem c2_counterexample_limit_ignored_under_ratio :
    (c2W.alloc_type).map Prod.fst = some 0 ∧ ¬ c2W.underLimit 0 := by
  constructor
  · have hur : c2W.underRatio 0 := by
      norm_num [ClientManager.underRatio, ClientManager.curr_ratio, c2W]
    have hp0 : c2W.pri0.head? = some 0 := by
      rw [ClientManager.pri0, head_filter_range_eq_some]
      exact ⟨by norm_num [c2W], decide_eq_true hur, fun s hs => absurd hs (by omega)⟩
    rw [ClientManager.alloc_type, if_neg (by decide), hp0]
    rfl
  · decide

/-- C2 amended: only the fallback (`pri1`) choice is guaranteed to respect the
limits — when no type is under ratio, the chosen type is strictly under its
limit; a type under its ratio target can be chosen even at or beyond its
limit. -/
theorem c2_amended_fallback_respects_limits (m : ClientManager) (t : ClientType)
    (m' : ClientManager) (hn : m.n_ ≠ 0)
    (hnr : ∀ s, s < m.num_clients_.length → ¬ m.underRatio s)
    (h : m.alloc_type = some (t, m')) :
    ∃ u : Nat, t = (u : Int) ∧ m.underLimit u := by
  have hp0 : m.pri0.head? = none := by
    rw [ClientManager.pri0, head_filter_range_eq_none]
    exact fun s hs => decide_eq_false (hnr s hs)
  rw [ClientManager.alloc_type, if_neg hn, hp0] at h
  cases hp1 : m.pri1.head? with
  | none =>
    rw [hp1] at h
    exact Option.noConfusion h
  | some u =>
    rw [hp1] at h
    simp only [Option.some.injEq, Prod.mk.injEq] at h
    obtain ⟨h1, -⟩ := h
    refine ⟨u, h1.symm, ?_⟩
    rw [ClientManager.pri1] at hp1
    have hchar := (head_filter_range_eq_some _ _ _).mp hp1
    exact of_decide_eq_true hchar.2.1

/-- Registry state for the C2-amended witness: no type under ratio, both under
limit. -/
def c2Wa : ClientManager := ⟨⟨[1/2, 1/2], [100, 100], 1, 300⟩, [], [1, 1], 2⟩

/-- Witness for the amended C2 at a concrete state where the fallback fires. -/
theorem c2_amended_fallback_respects_limits_witness :
    ∃ u : Nat, (0 : Int) = (u : Int) ∧ c2Wa.underLimit u := by
  have hnr : ∀ s, s < c2Wa.num_clients_.length → ¬ c2Wa.underRatio s := by
    intro s hs
    have hs2 : s = 0 ∨ s = 1 := by
      simp only [c2Wa, List.length_cons, List.length_nil] at hs
      omega
    rcases hs2 with rfl | rfl <;>
      norm_num [ClientManager.underRatio, ClientManager.curr_ratio, c2Wa]
  have halloc : c2Wa.alloc_type = some (0, c2Wa.bumpCount 0) := by
    have hp0 : c2Wa.pri0.head? = none := by
      rw [ClientManager.pri0, head_filter_range_eq_none]
      exact fun s hs => decide_eq_false (hnr s hs)
    have hp1 : c2Wa.pri1.head? = some 0 := by
      rw [ClientManager.pri1, head_filter_range_eq_some]
      exact ⟨by norm_num [c2Wa], decide_eq_true (by decide), fun s hs => absurd hs (by omega)⟩
    rw [ClientManager.alloc_type, if_neg (by decide), hp0, hp1]
    rfl
  exact c2_amended_fallback_respects_limits c2Wa 0 (c2Wa.bumpCount 0) (by decide) hnr halloc

/-! ### C8: thread-id bounds checking in `ClientInfo::stateUpdate` -/

/-- C8. A heartbeat carrying a thread id outside `[0, numThreads)` makes
`ClientInfo::stateUpdate` fault deterministically (the `assert`, modelled as
`none`) without touching any slot; under the precondition the fault branch is
unreachable and the call succeeds. -/
theorem c8_state_update_bounds (c : ClientInfo) (tm : Timer) (ts : ThreadState) :
    ((ts.thread_id < 0 ∨ (c.threads_.length : Int) ≤ ts.thread_id) →
      c.stateUpdate tm ts = none)
    ∧ (0 ≤ ts.thread_id → ts.thread_id < (c.threads_.length : Int) →
        (c.stateUpdate tm ts).isSome = true) := by
  constructor
  · intro h
    rw [ClientInfo.stateUpdate, if_neg]
    rintro ⟨hb1, hb2⟩
    rcases h with h | h
    · omega
    · omega
  · intro h1 h2
    rw [ClientInfo.stateUpdate, if_pos ⟨h1, h2⟩]
    have hlt : ts.thread_id.toNat < c.threads_.length := by omega
    rw [List.getElem?_eq_getElem hlt]
    by_cases hch :
        ((c.threads_[ts.thread_id.toNat]).StateUpdate tm ts).1 = true
    · simp only [hch, if_pos]
      rfl
    · simp only [Bool.not_eq_true] at hch
      simp only [hch]
      rfl

/-- Record with exactly one thread slot, for the C8 witness. -/
def c8W : ClientInfo := ⟨"w", 0, 300, 0, true, 1000, [⟨⟨0, 0⟩, 1000⟩]⟩

/-- Timer for the C8 witness. -/
def c8Wtm : Timer := ⟨fun _ => 1000, 0⟩

/-- Witness for C8: thread id `5` faults on a one-slot record; thread id `0`
succeeds. -/
theorem c8_state_update_bounds_witness :
    c8W.stateUpdate c8Wtm ⟨5, 0⟩ = none
    ∧ (c8W.stateUpdate c8Wtm ⟨0, 7⟩).isSome = true :=
  ⟨(c8_state_update_bounds c8W c8Wtm ⟨5, 0⟩).1 (Or.inr (by decide)),
   (c8_state_update_bounds c8W c8Wtm ⟨0, 7⟩).2 (by decide) (by decide)⟩

/-! ### C10: heartbeat slots are selected by the value's `thread_id`, not the
map key -/

/-- The loop of `updateStates` ignores the map keys: replacing every key by an
arbitrary function of it changes nothing. -/
theorem applyThreadUpdates_map_keys (g : Int × ThreadState → Int) :
    ∀ (l : List (Int × ThreadState)) (c : ClientInfo) (tm : Timer),
      applyThreadUpdates c tm (l.map fun s => (g s, s.2)) = applyThreadUpdates c tm l := by
  intro l
  induction l with
  | nil =>
    intro c tm
    rfl
  | cons s rest ih =>
    intro c tm
    cases h : c.stateUpdate tm s.2 with
    | none =>
      simp only [List.map_cons, applyThreadUpdates, h]
    | some r =>
      simp only [List.map_cons, applyThreadUpdates, h]
      exact ih r.1 r.2

/-- Fresh registry with two thread slots per record, for the C10
demonstration. -/
def c10W : ClientManager := ⟨⟨[1/2, 1/2], [100, 100], 2, 300⟩, [], [0, 0], 0⟩

/-- Timer for the C10 demonstration. -/
def c10Wtm : Timer := ⟨fun _ => 1000, 0⟩

/-- Snapshot carrying `thread_id = 0`, delivered with map key `5`. -/
def c10Wts : ThreadState := ⟨0, 7⟩

/-- C10. `updateStates` dispatches each update by the `thread_id` carried in
the `ThreadState` value (`s.second`); the integer map keys are ignored, so
rewriting all keys changes nothing, and a pair with key `5` whose value names
thread `0` updates slot `0` (slot `1` keeps its initial snapshot). -/
theorem c10_slot_selected_by_value :
    (∀ (g : Int × ThreadState → Int) (m : ClientManager) (tm : Timer) (id : String)
        (states : List (Int × ThreadState)),
        m.updateStates tm id (states.map fun s => (g s, s.2))
          = m.updateStates tm id states)
    ∧ (c10W.updateStates c10Wtm "A" [(5, c10Wts)]).map (fun r =>
        (r.1.clients_.lookup "A").map fun c =>
          ((c.threads_[0]?).map ClientInfo.State.last_state_,
           (c.threads_[1]?).map ClientInfo.State.last_state_))
        = some (some (some c10Wts, some ⟨-1, 0⟩)) := by
  constructor
  · intro g m tm id states
    simp only [ClientManager.updateStates, applyThreadUpdates_map_keys]
  · rfl

/-! ### C1: the counter invariant is broken by the bootstrap allocation -/

/-- Fresh registry for the C1 failing input: two types, ratios `[1/2, 1/2]`,
limits `[100, 100]`, one thread slot, constant time source `1000`. -/
def c1W : ClientManager := ⟨⟨[1/2, 1/2], [100, 100], 1, 300⟩, [], [0, 0], 0⟩

/-- Timer for the C1 failing input. -/
def c1Wtm : Timer := ⟨fun _ => 1000, 0⟩

/-- C1 (evaluation of the code at the failing input): after a single
`updateStates` heartbeat on a fresh registry there is one record with
`active_ = true`, yet `n_` and every per-type counter are still `0` — the
early `return 0` of `alloc_type` skips the increments, so
`totalActiveCount = Σ perTypeActiveCount = 0 ≠ 1 = |{records : isActive}|`. -/
theorem c1_counter_invariant_broken :
    (c1W.updateStates c1Wtm "A" [(0, ⟨0, 7⟩)]).map (fun r =>
      (r.1.countActive, r.1.n_, r.1.sumCounts)) = some (1, 0, 0) := by
  rfl

/-! ### C5: the allocation sequence on three fresh clients -/

/-- Fresh registry for the C5 failing input, exactly the spec's scenario:
ratios `[1/2, 1/2]`, limits `[100, 100]`, constant time source. -/
def c5W : ClientManager := ⟨⟨[1/2, 1/2], [100, 100], 1, 300⟩, [], [0, 0], 0⟩

/-- Timer for the C5 failing input. -/
def c5Wtm : Timer := ⟨fun _ => 1000, 0⟩

/-- The three first heartbeats of the C5 scenario. -/
def c5Wops : List Op :=
  [Op.updateStates "A" [(0, ⟨0, 7⟩)],
   Op.updateStates "B" [(0, ⟨0, 7⟩)],
   Op.updateStates "C" [(0, ⟨0, 7⟩)]]

/-- C5 (evaluation of the code at the failing input): the three clients are
assigned types `0, 0, 0` — not `0, 1, 0` — because every allocation still
sees `n_ = 0` (the bootstrap early return never increments the counters). -/
theorem c5_alloc_sequence_is_all_type_zero :
    (c5W.runOps c5Wtm c5Wops).map (fun r =>
      ((r.1.clients_.lookup "A").map ClientInfo.type_,
       (r.1.clients_.lookup "B").map ClientInfo.type_,
       (r.1.clients_.lookup "C").map ClientInfo.type_, r.1.n_))
      = some (some 0, some 0, some 0, 0) := by
  rfl

/-! ### C7: timestamps never decrease under a non-decreasing time source -/

/-- The injected time source is monotonically non-decreasing. -/
def MonoSrc (f : Nat → Nat) : Prop := ∀ i j, i ≤ j → f i ≤ f j

/-- Every timestamp stored in the record is at most `b`. -/
def ClientInfo.TsLE (c : ClientInfo) (b : Nat) : Prop :=
  c.last_update_ ≤ b ∧ ∀ s ∈ c.threads_, s.last_state_update_ ≤ b

/-- Every timestamp stored in the registry is at most `b`. -/
def ClientManager.TsLE (m : ClientManager) (b : Nat) : Prop :=
  ∀ p ∈ m.clients_, ClientInfo.TsLE p.2 b

/-- The record's activity timestamp and every per-thread change timestamp are
at least those of `c` (slotwise). -/
def ClientInfo.TsGrow (c c' : ClientInfo) : Prop :=
  c.last_update_ ≤ c'.last_update_
  ∧ c.threads_.length = c'.threads_.length
  ∧ ∀ (i : Nat) (s s' : ClientInfo.State),
      c.threads_[i]? = some s → c'.threads_[i]? = some s' →
      s.last_state_update_ ≤ s'.last_state_update_

/-- Every record surviving from `m` to `m'` only grows its timestamps. -/
def ClientManager.TsGrow (m m' : ClientManager) : Prop :=
  ∀ id c, m.clients_.lookup id = some c →
    ∃ c', m'.clients_.lookup id = some c' ∧ ClientInfo.TsGrow c c'

theorem infoTsGrow_refl (c : ClientInfo) : c.TsGrow c := by
  refine ⟨Nat.le_refl _, rfl, ?_⟩
  intro i s s' h h'
  rw [h] at h'
  cases h'
  exact Nat.le_refl _

theorem infoTsGrow_trans {a b c : ClientInfo} (h1 : a.TsGrow b) (h2 : b.TsGrow c) :
    a.TsGrow c := by
  refine ⟨Nat.le_trans h1.1 h2.1, h1.2.1.trans h2.2.1, ?_⟩
  intro i s s' hs hs'
  have hib : i < b.threads_.length := by
    have hia : i < a.threads_.length := (List.getElem?_eq_some.mp hs).1
    have hab := h1.2.1
    omega
  have hmid : b.threads_[i]? = some b.threads_[i] := List.getElem?_eq_getElem hib
  exact Nat.le_trans (h1.2.2 i s _ hs hmid) (h2.2.2 i _ s' hmid hs')

theorem mgrTsGrow_refl (m : ClientManager) : m.TsGrow m :=
  fun id c h => ⟨c, h, infoTsGrow_refl c⟩

theorem mgrTsGrow_trans {a b c : ClientManager} (h1 : a.TsGrow b)
    (h2 : b.TsGrow c) : a.TsGrow c := by
  intro id x hx
  obtain ⟨y, hy, hxy⟩ := h1 id x hx
  obtain ⟨z, hz, hyz⟩ := h2 id y hy
  exact ⟨z, hz, infoTsGrow_trans hxy hyz⟩

/-- One `StateUpdate` call only advances the slot's change timestamp, and the
result stays bounded by the next timer value. -/
theorem stateUpdate_ts_mono (s : ClientInfo.State) (tm : Timer) (ts : ThreadState)
    (hm : MonoSrc tm.src) (hb : s.last_state_update_ ≤ tm.src tm.k) :
    s.last_state_update_ ≤ (s.StateUpdate tm ts).2.1.last_state_update_
    ∧ (s.StateUpdate tm ts).2.1.last_state_update_
        ≤ (s.StateUpdate tm ts).2.2.src (s.StateUpdate tm ts).2.2.k
    ∧ (s.StateUpdate tm ts).2.2.src = tm.src
    ∧ tm.k ≤ (s.StateUpdate tm ts).2.2.k := by
  have hstep : tm.src tm.k ≤ tm.src (tm.k + 1) := hm tm.k (tm.k + 1) (Nat.le_succ _)
  by_cases h : s.last_state_ = ts
  · simp [ClientInfo.State.StateUpdate, Timer.tick, h, hb]
  · simp [ClientInfo.State.StateUpdate, Timer.tick, h, hb, hstep, Nat.le_succ]

/-- One `ClientInfo::stateUpdate` call only advances the record's timestamps,
keeps them bounded by the next timer value, and leaves the timer stream
intact. -/
theorem info_stateUpdate_mono (c : ClientInfo) (tm : Timer) (ts : ThreadState)
    (c' : ClientInfo) (tm' : Timer) (hm : MonoSrc tm.src)
    (hb : c.TsLE (tm.src tm.k))
    (h : c.stateUpdate tm ts = some (c', tm')) :
    ClientInfo.TsGrow c c'
    ∧ c'.TsLE (tm'.src tm'.k)
    ∧ tm'.src = tm.src ∧ tm.k ≤ tm'.k := by
  by_cases hbnd : 0 ≤ ts.thread_id ∧ ts.thread_id < (c.threads_.length : Int)
  case neg =>
    rw [ClientInfo.stateUpdate, if_neg hbnd] at h
    exact Option.noConfusion h
  case pos =>
    have hlt : ts.thread_id.toNat < c.threads_.length := by omega
    rw [ClientInfo.stateUpdate, if_pos hbnd] at h
    split at h
    · exact Option.noConfusion h
    · rename_i st hget
      have hmem : st ∈ c.threads_ := List.getElem?_mem hget
      have hsb : st.last_state_update_ ≤ tm.src tm.k := hb.2 st hmem
      obtain ⟨h1, h2, h3, h4⟩ := stateUpdate_ts_mono st tm ts hm hsb
      have hgrow :
          ClientInfo.TsGrow c
            { c with threads_ := c.threads_.set ts.thread_id.toNat (st.StateUpdate tm ts).2.1 } := by
        refine ⟨Nat.le_refl _, (List.length_set c.threads_ _ _).symm, ?_⟩
        intro j s s' hjs hjs'
        by_cases hji : j = ts.thread_id.toNat
        · subst hji
          rw [hget] at hjs
          cases hjs
          dsimp only at hjs'
          rw [List.getElem?_set_self hlt] at hjs'
          cases hjs'
          exact h1
        · dsimp only at hjs'
          rw [List.getElem?_set_ne (fun he => hji he.symm)] at hjs'
          rw [hjs] at hjs'
          cases hjs'
          exact Nat.le_refl _
      have hthreads :
          ∀ s ∈ c.threads_.set ts.thread_id.toNat (st.StateUpdate tm ts).2.1,
            s.last_state_update_ ≤ (st.StateUpdate tm ts).2.2.src (st.StateUpdate tm ts).2.2.k := by
        intro s hs
        rcases List.mem_or_eq_of_mem_set hs with hold | hnew
        · calc s.last_state_update_ ≤ tm.src tm.k := hb.2 s hold
            _ ≤ (st.StateUpdate tm ts).2.2.src (st.StateUpdate tm ts).2.2.k := by
              rw [h3]
              exact hm _ _ h4
        · rw [hnew]
          exact h2
      dsimp only at h
      split at h
      · rename_i hch
        simp only [Timer.tick, Option.some.injEq, Prod.mk.injEq] at h
        obtain ⟨rfl, rfl⟩ := h
        refine ⟨?_, ⟨?_, ?_⟩, ?_, ?_⟩
        · refine ⟨?_, hgrow.2.1, hgrow.2.2⟩
          calc c.last_update_ ≤ tm.src tm.k := hb.1
            _ ≤ tm.src (st.StateUpdate tm ts).2.2.k := hm _ _ h4
            _ = (st.StateUpdate tm ts).2.2.src (st.StateUpdate tm ts).2.2.k := by rw [h3]
        · show (st.StateUpdate tm ts).2.2.src (st.StateUpdate tm ts).2.2.k
            ≤ (st.StateUpdate tm ts).2.2.src ((st.StateUpdate tm ts).2.2.k + 1)
          rw [h3]
          exact hm _ _ (Nat.le_succ _)
        · intro s hs
          calc s.last_state_update_
              ≤ (st.StateUpdate tm ts).2.2.src (st.StateUpdate tm ts).2.2.k := hthreads s hs
            _ ≤ (st.StateUpdate tm ts).2.2.src ((st.StateUpdate tm ts).2.2.k + 1) := by
                rw [h3]
                exact hm _ _ (Nat.le_succ _)
        · exact h3
        · show tm.k ≤ (st.StateUpdate tm ts).2.2.k + 1
          omega
      · rename_i hch
        simp only [Option.some.injEq, Prod.mk.injEq] at h
        obtain ⟨rfl, rfl⟩ := h
        refine ⟨?_, ⟨?_, ?_⟩, h3, h4⟩
        · exact hgrow
        · calc c.last_update_ ≤ tm.src tm.k := hb.1
            _ ≤ (st.StateUpdate tm ts).2.2.src (st.StateUpdate tm ts).2.2.k := by
              rw [h3]
              exact hm _ _ h4
        · exact hthreads

/-- Folding a heartbeat's thread updates only advances the record's
timestamps. -/
theorem applyThreadUpdates_mono :
    ∀ (l : List (Int × ThreadState)) (c : ClientInfo) (tm : Timer) (c' : ClientInfo)
      (tm' : Timer), MonoSrc tm.src → c.TsLE (tm.src tm.k) →
      applyThreadUpdates c tm l = some (c', tm') →
      ClientInfo.TsGrow c c' ∧ c'.TsLE (tm'.src tm'.k) ∧ tm'.src = tm.src ∧ tm.k ≤ tm'.k := by
  intro l
  induction l with
  | nil =>
    intro c tm c' tm' hm hb h
    simp only [applyThreadUpdates, Option.some.injEq, Prod.mk.injEq] at h
    obtain ⟨rfl, rfl⟩ := h
    exact ⟨infoTsGrow_refl c, hb, rfl, Nat.le_refl _⟩
  | cons s rest ih =>
    intro c tm c' tm' hm hb h
    rw [applyThreadUpdates] at h
    cases hsu : c.stateUpdate tm s.2 with
    | none =>
      rw [hsu] at h
      exact Option.noConfusion h
    | some r =>
      rw [hsu] at h
      obtain ⟨hg1, hb1, hsrc1, hk1⟩ := info_stateUpdate_mono c tm s.2 r.1 r.2 hm hb hsu
      have hm1 : MonoSrc r.2.src := by
        rw [hsrc1]
        exact hm
      obtain ⟨hg2, hb2, hsrc2, hk2⟩ := ih r.1 r.2 c' tm' hm1 hb1 h
      refine ⟨infoTsGrow_trans hg1 hg2, hb2, ?_, ?_⟩
      · rw [hsrc2, hsrc1]
      · omega

/-- `updateActiveAt` only toggles the cached flag; every other field is kept. -/
theorem updateActiveAt_shape (c : ClientInfo) (now : Nat) :
    ∃ b : Bool, (c.updateActiveAt now).2 = { c with active_ := b } := by
  obtain ⟨i, t, md, sq, ac, lu, th⟩ := c
  by_cases h1 : ac = true <;> by_cases h2 : sub64 now lu < md
  · subst h1
    exact ⟨true, by simp [ClientInfo.updateActiveAt, h2]⟩
  · subst h1
    exact ⟨false, by simp [ClientInfo.updateActiveAt, h2]⟩
  · rw [Bool.not_eq_true] at h1
    subst h1
    exact ⟨true, by simp [ClientInfo.updateActiveAt, h2]⟩
  · rw [Bool.not_eq_true] at h1
    subst h1
    exact ⟨false, by simp [ClientInfo.updateActiveAt, h2]⟩

/-- `updateActive` is `updateActiveAt` at the ticked value. -/
theorem updateActive_parts (c : ClientInfo) (tm : Timer) :
    (c.updateActive tm).2.1 = (c.updateActiveAt (tm.src tm.k)).2
    ∧ (c.updateActive tm).2.2 = ⟨tm.src, tm.k + 1⟩ :=
  ⟨rfl, rfl⟩

/-- The states built by the `ClientInfo` constructor loop are all stamped with
already-consumed timer values. -/
theorem mkStates_facts :
    ∀ (n : Nat) (tm : Timer), MonoSrc tm.src →
      (ClientInfo.mkStates tm n).2.src = tm.src
      ∧ tm.k ≤ (ClientInfo.mkStates tm n).2.k
      ∧ ∀ s ∈ (ClientInfo.mkStates tm n).1,
          s.last_state_update_
            ≤ (ClientInfo.mkStates tm n).2.src (ClientInfo.mkStates tm n).2.k := by
  intro n
  induction n with
  | zero =>
    intro tm hm
    refine ⟨rfl, Nat.le_refl _, ?_⟩
    intro s hs
    exact absurd hs (List.not_mem_nil s)
  | succ n ih =>
    intro tm hm
    obtain ⟨ha, hb, hc⟩ := ih ⟨tm.src, tm.k + 1⟩ hm
    have hb1 : tm.k + 1 ≤ (ClientInfo.mkStates ⟨tm.src, tm.k + 1⟩ n).2.k := hb
    simp only [ClientInfo.mkStates, Timer.tick]
    refine ⟨ha, by omega, ?_⟩
    intro s hs
    rcases List.mem_cons.mp hs with hhead | htail
    · rw [hhead]
      show tm.src tm.k
        ≤ (ClientInfo.mkStates ⟨tm.src, tm.k + 1⟩ n).2.src
            (ClientInfo.mkStates ⟨tm.src, tm.k + 1⟩ n).2.k
      rw [ha]
      exact hm _ _ (by omega)
    · exact hc s htail

/-- The fresh record built by `_getClient` has all timestamps bounded by the
next timer value, and the timer stream is preserved. -/
theorem create_facts (id : String) (nthreads mds : Nat) (tm : Timer) (hm : MonoSrc tm.src) :
    (ClientInfo.create id nthreads mds tm).2.src = tm.src
    ∧ tm.k ≤ (ClientInfo.create id nthreads mds tm).2.k
    ∧ ClientInfo.TsLE (ClientInfo.create id nthreads mds tm).1
        ((ClientInfo.create id nthreads mds tm).2.src
          (ClientInfo.create id nthreads mds tm).2.k) := by
  obtain ⟨ha, hb, hc⟩ := mkStates_facts nthreads tm hm
  simp only [ClientInfo.create, Timer.tick]
  refine ⟨ha, by omega, ?_, ?_⟩
  · show (ClientInfo.mkStates tm nthreads).2.src (ClientInfo.mkStates tm nthreads).2.k
      ≤ (ClientInfo.mkStates tm nthreads).2.src ((ClientInfo.mkStates tm nthreads).2.k + 1)
    rw [ha]
    exact hm _ _ (Nat.le_succ _)
  · intro s hs
    calc s.last_state_update_
        ≤ (ClientInfo.mkStates tm nthreads).2.src (ClientInfo.mkStates tm nthreads).2.k :=
          hc s hs
      _ ≤ (ClientInfo.mkStates tm nthreads).2.src ((ClientInfo.mkStates tm nthreads).2.k + 1) := by
          rw [ha]
          exact hm _ _ (Nat.le_succ _)

/-- `alloc_type` never touches the client map. -/
theorem alloc_type_clients {m : ClientManager} {t : ClientType} {m' : ClientManager}
    (h : m.alloc_type = some (t, m')) : m'.clients_ = m.clients_ := by
  rw [ClientManager.alloc_type] at h
  by_cases hn : m.n_ = 0
  · rw [if_pos hn] at h
    simp only [Option.some.injEq, Prod.mk.injEq] at h
    obtain ⟨-, rfl⟩ := h
    rfl
  · rw [if_neg hn] at h
    cases h0 : m.pri0.head? with
    | some u =>
      rw [h0] at h
      simp only [Option.some.injEq, Prod.mk.injEq] at h
      obtain ⟨-, rfl⟩ := h
      rfl
    | none =>
      rw [h0] at h
      cases h1 : m.pri1.head? with
      | some u =>
        rw [h1] at h
        simp only [Option.some.injEq, Prod.mk.injEq] at h
        obtain ⟨-, rfl⟩ := h
        rfl
      | none =>
        rw [h1] at h
        exact Option.noConfusion h

/-- `dealloc_type` never touches the client map. -/
theorem dealloc_type_clients {m : ClientManager} {t : ClientType} {m' : ClientManager}
    (h : m.dealloc_type t = some m') : m'.clients_ = m.clients_ := by
  rw [ClientManager.dealloc_type] at h
  by_cases hb : 0 ≤ t ∧ t < (m.num_clients_.length : Int)
  · rw [if_pos hb] at h
    simp only [Option.some.injEq] at h
    rw [← h]
  · rw [if_neg hb] at h
    exact Option.noConfusion h

/-- A key found in the left part of an appended association list is still
found, with the same value, after the append. -/
theorem lookup_append_of_some {l l' : List (String × ClientInfo)} {id : String}
    {c : ClientInfo} (h : l.lookup id = some c) : (l ++ l').lookup id = some c := by
  induction l with
  | nil => exact Option.noConfusion h
  | cons p rest ih =>
    obtain ⟨k, b⟩ := p
    rw [List.cons_append, List.lookup_cons] at *
    cases hkb : (id == k) with
    | true =>
      simp only [hkb] at h ⊢
      exact h
    | false =>
      simp only [hkb] at h ⊢
      exact ih h

/-- Appending a fresh binding at the end makes it visible when the key was
absent. -/
theorem lookup_append_self {l : List (String × ClientInfo)} {id : String} {c : ClientInfo}
    (h : l.lookup id = none) : (l ++ [(id, c)]).lookup id = some c := by
  induction l with
  | nil =>
    rw [List.nil_append, List.lookup_cons]
    simp
  | cons p rest ih =>
    obtain ⟨k, b⟩ := p
    rw [List.lookup_cons] at h
    rw [List.cons_append, List.lookup_cons]
    cases hkb : (id == k) with
    | true =>
      simp only [hkb] at h
      exact Option.noConfusion h
    | false =>
      simp only [hkb] at h ⊢
      exact ih h

/-- A looked-up value comes from some pair of the list. -/
theorem lookup_pair_mem {l : List (String × ClientInfo)} {id : String} {c : ClientInfo}
    (h : l.lookup id = some c) : ∃ k, (k, c) ∈ l := by
  induction l with
  | nil => exact Option.noConfusion h
  | cons p rest ih =>
    obtain ⟨k, b⟩ := p
    rw [List.lookup_cons] at h
    cases hkb : (id == k) with
    | true =>
      simp only [hkb] at h
      cases h
      exact ⟨k, List.mem_cons_self _ _⟩
    | false =>
      simp only [hkb] at h
      obtain ⟨k', hk'⟩ := ih h
      exact ⟨k', List.mem_cons_of_mem _ hk'⟩

/-- Writing back a record replaces what `lookup` finds at its key. -/
theorem updateAssoc_lookup_self {l : List (String × ClientInfo)} {id : String}
    {c0 c : ClientInfo} (h : l.lookup id = some c0) :
    (updateAssoc id c l).lookup id = some c := by
  induction l with
  | nil => exact Option.noConfusion h
  | cons p rest ih =>
    obtain ⟨k, b⟩ := p
    rw [List.lookup_cons] at h
    simp only [updateAssoc, List.map_cons]
    cases hkb : (id == k) with
    | true =>
      have hk : k = id := (beq_iff_eq.mp hkb).symm
      rw [if_pos hk, List.lookup_cons]
      simp
    | false =>
      have hk : ¬ (k = id) := by
        intro he
        subst he
        rw [beq_self_eq_true] at hkb
        exact Bool.noConfusion hkb
      rw [if_neg hk, List.lookup_cons]
      simp only [hkb] at h ⊢
      exact ih h

/-- Writing back a record leaves every other key's lookup unchanged. -/
theorem updateAssoc_lookup_ne {l : List (String × ClientInfo)} {id id' : String}
    {c : ClientInfo} (hne : (id' == id) = false) :
    (updateAssoc id c l).lookup id' = l.lookup id' := by
  induction l with
  | nil => rfl
  | cons p rest ih =>
    obtain ⟨k, b⟩ := p
    simp only [updateAssoc, List.map_cons]
    by_cases hk : k = id
    · rw [if_pos hk, List.lookup_cons, List.lookup_cons]
      have h1 : (id' == k) = false := by
        rw [hk]
        exact hne
      simp only [h1, hne]
      exact ih
    · rw [if_neg hk, List.lookup_cons, List.lookup_cons]
      cases hkb : (id' == k) with
      | true => rfl
      | false =>
        simp only [hkb]
        exact ih

/-- Members of the written-back map are the new binding or old members. -/
theorem updateAssoc_mem {l : List (String × ClientInfo)} {id : String} {c : ClientInfo}
    {p : String × ClientInfo} (h : p ∈ updateAssoc id c l) : p = (id, c) ∨ p ∈ l := by
  simp only [updateAssoc, List.mem_map] at h
  obtain ⟨q, hq, hpq⟩ := h
  by_cases hk : q.1 = id
  · rw [if_pos hk] at hpq
    exact Or.inl hpq.symm
  · rw [if_neg hk] at hpq
    rw [← hpq]
    exact Or.inr hq

/-- `_getClient` only ever adds a freshly-stamped record; existing records and
their timestamps are untouched, and afterwards the identity is present. -/
theorem getClient_mono (m : ClientManager) (tm : Timer) (id : String)
    (m1 : ClientManager) (tm1 : Timer) (hm : MonoSrc tm.src)
    (hb : m.TsLE (tm.src tm.k)) (h : m._getClient tm id = some (m1, tm1)) :
    ClientManager.TsGrow m m1 ∧ m1.TsLE (tm1.src tm1.k)
    ∧ tm1.src = tm.src ∧ tm.k ≤ tm1.k
    ∧ (m1.clients_.lookup id).isSome = true := by
  rw [ClientManager._getClient] at h
  cases hl : m.clients_.lookup id with
  | some c =>
    rw [hl] at h
    simp only [Option.some.injEq, Prod.mk.injEq] at h
    obtain ⟨rfl, rfl⟩ := h
    refine ⟨mgrTsGrow_refl m, hb, rfl, Nat.le_refl _, ?_⟩
    rw [hl]
    rfl
  | none =>
    rw [hl] at h
    cases ha : m.alloc_type with
    | none =>
      rw [ha] at h
      exact Option.noConfusion h
    | some a =>
      rw [ha] at h
      simp only [Option.some.injEq, Prod.mk.injEq] at h
      obtain ⟨rfl, rfl⟩ := h
      have hclients : a.2.clients_ = m.clients_ :=
        @alloc_type_clients m a.1 a.2 (by rw [ha])
      obtain ⟨hcsrc, hck, hcb⟩ := create_facts id m.options_.max_num_threads
        m.options_.client_max_delay_sec tm hm
      have hstep : tm.src tm.k
          ≤ (ClientInfo.create id m.options_.max_num_threads
              m.options_.client_max_delay_sec tm).2.src
            (ClientInfo.create id m.options_.max_num_threads
              m.options_.client_max_delay_sec tm).2.k := by
        rw [hcsrc]
        exact hm _ _ hck
      refine ⟨?_, ?_, hcsrc, hck, ?_⟩
      · intro id' c' hc'
        refine ⟨c', ?_, infoTsGrow_refl c'⟩
        show (a.2.clients_ ++ _).lookup id' = some c'
        rw [hclients]
        exact lookup_append_of_some hc'
      · intro p hp
        rcases List.mem_append.mp hp with hold | hnew
        · rw [hclients] at hold
          have hple := hb p hold
          exact ⟨Nat.le_trans hple.1 hstep, fun s hs => Nat.le_trans (hple.2 s hs) hstep⟩
        · rw [List.mem_singleton.mp hnew]
          exact ⟨hcb.1, hcb.2⟩
      · have hfound :
            (a.2.clients_ ++ [(id, (ClientInfo.create id m.options_.max_num_threads
                m.options_.client_max_delay_sec tm).1.set_type a.1)]).lookup id
              = some ((ClientInfo.create id m.options_.max_num_threads
                m.options_.client_max_delay_sec tm).1.set_type a.1) := by
          rw [hclients]
          exact lookup_append_self hl
        rw [hfound]
        rfl

/-- What the sweep does to one map entry: same key, same activity timestamp,
same thread slots (only `active_` and `type_` may change). -/
def SweepRel (p q : String × ClientInfo) : Prop :=
  p.1 = q.1 ∧ p.2.last_update_ = q.2.last_update_ ∧ p.2.threads_ = q.2.threads_

/-- A record whose timestamps are unchanged trivially grows. -/
theorem tsGrow_of_eq {c c' : ClientInfo} (h1 : c.last_update_ = c'.last_update_)
    (h2 : c.threads_ = c'.threads_) : ClientInfo.TsGrow c c' := by
  refine ⟨h1.le, by rw [h2], ?_⟩
  intro i s s' hs hs'
  rw [h2] at hs
  rw [hs] at hs'
  cases hs'
  exact Nat.le_refl _

/-- Transport a lookup across the sweep's entrywise relation. -/
theorem forall2_lookup_grow :
    ∀ {l l' : List (String × ClientInfo)}, List.Forall₂ SweepRel l l' →
      ∀ (id : String) (c : ClientInfo), l.lookup id = some c →
        ∃ c', l'.lookup id = some c' ∧ ClientInfo.TsGrow c c' := by
  intro l l' hrel
  induction hrel with
  | nil =>
    intro id c h
    exact Option.noConfusion h
  | cons hpq hrest ih =>
    rename_i p q l1 l2
    intro id c h
    obtain ⟨p1, p2⟩ := p
    obtain ⟨q1, q2⟩ := q
    obtain ⟨hk, hlu, hth⟩ := hpq
    rw [List.lookup_cons] at h
    rw [List.lookup_cons]
    cases hkb : (id == p1) with
    | true =>
      simp only [hkb] at h
      cases h
      have hk1 : p1 = q1 := hk
      have hkb2 : (id == q1) = true := by
        rw [← hk1]
        exact hkb
      simp only [hkb2]
      exact ⟨q2, rfl, tsGrow_of_eq hlu hth⟩
    | false =>
      simp only [hkb] at h
      have hk1 : p1 = q1 := hk
      have hkb2 : (id == q1) = false := by
        rw [← hk1]
        exact hkb
      simp only [hkb2]
      exact ih id c h
/-- Transport the timestamp bound across the sweep's entrywise relation. -/
theorem forall2_TsLE {b : Nat} :
    ∀ {l l' : List (String × ClientInfo)}, List.Forall₂ SweepRel l l' →
      (∀ p ∈ l, ClientInfo.TsLE p.2 b) → ∀ p ∈ l', ClientInfo.TsLE p.2 b := by
  intro l l' hrel
  induction hrel with
  | nil =>
    intro hb p hp
    exact absurd hp (List.not_mem_nil p)
  | cons hpq hrest ih =>
    rename_i p q l1 l2
    intro hb p' hp'
    rcases List.mem_cons.mp hp' with rfl | hp2
    · have hple := hb p (List.mem_cons_self _ _)
      exact ⟨hpq.2.1 ▸ hple.1, hpq.2.2 ▸ hple.2⟩
    · exact ih (fun r hr => hb r (List.mem_cons_of_mem _ hr)) p' hp2

/-- The sweep loop preserves the timer stream, the key sequence and every
record's timestamps; only flags, types and the global counters change. -/
theorem sweep_mono :
    ∀ (l : List (String × ClientInfo)) (m : ClientManager) (tm : Timer) (q : SweepResult),
      m.sweep tm l = some q →
      q.tmr.src = tm.src ∧ tm.k ≤ q.tmr.k
      ∧ q.mgr.clients_ = m.clients_
      ∧ List.Forall₂ SweepRel l q.clients := by
  intro l
  induction l with
  | nil =>
    intro m tm q h
    simp only [ClientManager.sweep, Option.some.injEq] at h
    rw [← h]
    exact ⟨rfl, Nat.le_refl _, rfl, List.Forall₂.nil⟩
  | cons p rest ih =>
    intro m tm q h
    obtain ⟨b, hbshape⟩ := updateActiveAt_shape p.2 (tm.src tm.k)
    have hu21 : (p.2.updateActive tm).2.1 = { p.2 with active_ := b } := by
      rw [(updateActive_parts p.2 tm).1, hbshape]
    have hu22 : (p.2.updateActive tm).2.2 = ⟨tm.src, tm.k + 1⟩ := rfl
    have hrelp : SweepRel p (p.1, (p.2.updateActive tm).2.1) := by
      refine ⟨rfl, ?_, ?_⟩ <;> rw [hu21]
    rw [ClientManager.sweep] at h
    cases hu : (p.2.updateActive tm).1 with
    | ALIVE2DEAD =>
      rw [hu] at h
      cases hd : m.dealloc_type (p.2.updateActive tm).2.1.type_ with
      | none =>
        rw [hd] at h
        exact Option.noConfusion h
      | some m1 =>
        rw [hd] at h
        rw [Option.map_eq_some'] at h
        obtain ⟨q', hq', hfq⟩ := h
        obtain ⟨ha, hk, hc, hrel⟩ := ih m1 (p.2.updateActive tm).2.2 q' hq'
        have hk1 : tm.k + 1 ≤ q'.tmr.k := by
          rw [hu22] at hk
          exact hk
        rw [← hfq]
        refine ⟨?_, Nat.le_trans (Nat.le_succ tm.k) hk1, ?_, ?_⟩
        · rw [ha, hu22]
        · rw [hc, dealloc_type_clients hd]
        · exact List.Forall₂.cons hrelp hrel
    | DEAD2ALIVE =>
      rw [hu] at h
      cases hal : m.alloc_type with
      | none =>
        rw [hal] at h
        exact Option.noConfusion h
      | some a =>
        rw [hal] at h
        rw [Option.map_eq_some'] at h
        obtain ⟨q', hq', hfq⟩ := h
        obtain ⟨ha, hk, hc, hrel⟩ := ih a.2 (p.2.updateActive tm).2.2 q' hq'
        have hk1 : tm.k + 1 ≤ q'.tmr.k := by
          rw [hu22] at hk
          exact hk
        rw [← hfq]
        refine ⟨?_, Nat.le_trans (Nat.le_succ tm.k) hk1, ?_, ?_⟩
        · rw [ha, hu22]
        · rw [hc, @alloc_type_clients m a.1 a.2 (by rw [hal])]
        · refine List.Forall₂.cons ⟨rfl, ?_, ?_⟩ hrel <;> rw [ClientInfo.set_type, hu21]
    | ALIVE =>
      rw [hu] at h
      rw [Option.map_eq_some'] at h
      obtain ⟨q', hq', hfq⟩ := h
      obtain ⟨ha, hk, hc, hrel⟩ := ih m (p.2.updateActive tm).2.2 q' hq'
      have hk1 : tm.k + 1 ≤ q'.tmr.k := by
        rw [hu22] at hk
        exact hk
      rw [← hfq]
      refine ⟨?_, Nat.le_trans (Nat.le_succ tm.k) hk1, hc, ?_⟩
      · rw [ha, hu22]
      · exact List.Forall₂.cons hrelp hrel
    | DEAD =>
      rw [hu] at h
      rw [Option.map_eq_some'] at h
      obtain ⟨q', hq', hfq⟩ := h
      obtain ⟨ha, hk, hc, hrel⟩ := ih m (p.2.updateActive tm).2.2 q' hq'
      have hk1 : tm.k + 1 ≤ q'.tmr.k := by
        rw [hu22] at hk
        exact hk
      rw [← hfq]
      refine ⟨?_, Nat.le_trans (Nat.le_succ tm.k) hk1, hc, ?_⟩
      · rw [ha, hu22]
      · exact List.Forall₂.cons hrelp hrel

/-- `updateClients` (the global sweep plus the optional log read) never
decreases any stored timestamp and keeps them bounded by the next timer
value. -/
theorem updateClients_mono (m : ClientManager) (tm : Timer) (m' : ClientManager)
    (tm' : Timer) (hm : MonoSrc tm.src) (hb : m.TsLE (tm.src tm.k))
    (h : m.updateClients tm = some (m', tm')) :
    ClientManager.TsGrow m m' ∧ m'.TsLE (tm'.src tm'.k) ∧ tm'.src = tm.src ∧ tm.k ≤ tm'.k := by
  rw [ClientManager.updateClients] at h
  cases hs : m.sweep tm m.clients_ with
  | none =>
    rw [hs] at h
    exact Option.noConfusion h
  | some q =>
    rw [hs] at h
    dsimp only at h
    obtain ⟨ha, hk, hc, hrel⟩ := sweep_mono m.clients_ m tm q hs
    have hgrow : ClientManager.TsGrow m { q.mgr with clients_ := q.clients } := by
      intro id c hcl
      obtain ⟨c', hc', hg⟩ := forall2_lookup_grow hrel id c hcl
      exact ⟨c', hc', hg⟩
    have hle : ∀ (b : Nat), tm.src tm.k ≤ b →
        ClientManager.TsLE { q.mgr with clients_ := q.clients } b := by
      intro b hbb
      have hb2 : ∀ p ∈ m.clients_, ClientInfo.TsLE p.2 b := by
        intro p hp
        have hple := hb p hp
        exact ⟨Nat.le_trans hple.1 hbb, fun s hsx => Nat.le_trans (hple.2 s hsx) hbb⟩
      exact forall2_TsLE hrel hb2
    by_cases he : (q.newly_dead.isEmpty && q.newly_alive.isEmpty) = true
    · rw [if_pos he] at h
      simp only [Option.some.injEq, Prod.mk.injEq] at h
      obtain ⟨rfl, rfl⟩ := h
      refine ⟨hgrow, ?_, ha, hk⟩
      refine hle _ ?_
      rw [ha]
      exact hm _ _ hk
    · rw [if_neg he] at h
      simp only [Timer.tick, Option.some.injEq, Prod.mk.injEq] at h
      obtain ⟨rfl, rfl⟩ := h
      refine ⟨hgrow, ?_, ?_, ?_⟩
      · refine hle _ ?_
        show tm.src tm.k ≤ q.tmr.src (q.tmr.k + 1)
        rw [ha]
        exact hm _ _ (by omega)
      · exact ha
      · show tm.k ≤ q.tmr.k + 1
        omega

/-- A whole `updateStates` heartbeat never decreases any stored timestamp. -/
theorem updateStates_mono (m : ClientManager) (tm : Timer) (id : String)
    (states : List (Int × ThreadState)) (m' : ClientManager) (tm' : Timer)
    (hm : MonoSrc tm.src) (hb : m.TsLE (tm.src tm.k))
    (h : m.updateStates tm id states = some (m', tm')) :
    ClientManager.TsGrow m m' ∧ m'.TsLE (tm'.src tm'.k) ∧ tm'.src = tm.src ∧ tm.k ≤ tm'.k := by
  rw [ClientManager.updateStates] at h
  cases hg : m._getClient tm id with
  | none =>
    rw [hg] at h
    exact Option.noConfusion h
  | some g =>
    rw [hg] at h
    dsimp only at h
    obtain ⟨hg1, hg2, hg3, hg4, -⟩ := getClient_mono m tm id g.1 g.2 hm hb (by rw [hg])
    cases hl : g.1.clients_.lookup id with
    | none =>
      rw [hl] at h
      exact Option.noConfusion h
    | some c =>
      rw [hl] at h
      dsimp only at h
      obtain ⟨k0, hk0⟩ := lookup_pair_mem hl
      have hcb : ClientInfo.TsLE c (g.2.src g.2.k) := hg2 (k0, c) hk0
      have hm2 : MonoSrc g.2.src := by
        rw [hg3]
        exact hm
      cases hap : applyThreadUpdates c g.2 states with
      | none =>
        rw [hap] at h
        exact Option.noConfusion h
      | some r =>
        rw [hap] at h
        dsimp only at h
        obtain ⟨ha1, ha2, ha3, ha4⟩ := applyThreadUpdates_mono states c g.2 r.1 r.2 hm2 hcb hap
        have hm3 : MonoSrc r.2.src := by
          rw [ha3]
          exact hm2
        have hstep2 : g.2.src g.2.k ≤ r.2.src r.2.k := by
          rw [ha3]
          exact hm2 _ _ ha4
        have hb2 : ClientManager.TsLE
            { g.1 with clients_ := updateAssoc id r.1 g.1.clients_ } (r.2.src r.2.k) := by
          intro p hp
          rcases updateAssoc_mem hp with hpnew | hold
          · rw [hpnew]
            exact ha2
          · have hple := hg2 p hold
            exact ⟨Nat.le_trans hple.1 hstep2, fun s hsx => Nat.le_trans (hple.2 s hsx) hstep2⟩
        obtain ⟨hu1, hu2, hu3, hu4⟩ := updateClients_mono
          { g.1 with clients_ := updateAssoc id r.1 g.1.clients_ } r.2 m' tm' hm3 hb2 h
        refine ⟨?_, hu2, by rw [hu3, ha3, hg3], by omega⟩
        have hgrow2 : ClientManager.TsGrow g.1
            { g.1 with clients_ := updateAssoc id r.1 g.1.clients_ } := by
          intro id' c' hc'
          by_cases hid : (id' == id) = true
          · have hideq : id' = id := beq_iff_eq.mp hid
            subst hideq
            rw [hl] at hc'
            cases hc'
            exact ⟨r.1, updateAssoc_lookup_self hl, ha1⟩
          · have hidf : (id' == id) = false := by
              cases hx : (id' == id) with
              | true => exact absurd hx hid
              | false => rfl
            exact ⟨c', (updateAssoc_lookup_ne hidf).trans hc', infoTsGrow_refl c'⟩
        exact mgrTsGrow_trans (mgrTsGrow_trans hg1 hgrow2) hu1

/-- One public registry operation never decreases any stored timestamp. -/
theorem runOp_mono (m : ClientManager) (tm : Timer) (op : Op) (m' : ClientManager)
    (tm' : Timer) (hm : MonoSrc tm.src) (hb : m.TsLE (tm.src tm.k))
    (h : m.runOp tm op = some (m', tm')) :
    ClientManager.TsGrow m m' ∧ m'.TsLE (tm'.src tm'.k) ∧ tm'.src = tm.src ∧ tm.k ≤ tm'.k := by
  cases op with
  | updateStates id states => exact updateStates_mono m tm id states m' tm' hm hb h
  | getClientC id =>
    simp only [ClientManager.runOp, Option.some.injEq, Prod.mk.injEq] at h
    obtain ⟨rfl, rfl⟩ := h
    exact ⟨mgrTsGrow_refl m, hb, rfl, Nat.le_refl _⟩
  | setClientTypeRatio ratio =>
    simp only [ClientManager.runOp, Option.some.injEq, Prod.mk.injEq] at h
    obtain ⟨rfl, rfl⟩ := h
    refine ⟨?_, hb, rfl, Nat.le_refl _⟩
    intro id c hc
    exact ⟨c, hc, infoTsGrow_refl c⟩

/-- A whole operation sequence never decreases any stored timestamp. -/
theorem runOps_mono :
    ∀ (ops : List Op) (m : ClientManager) (tm : Timer) (m' : ClientManager) (tm' : Timer),
      MonoSrc tm.src → m.TsLE (tm.src tm.k) →
      m.runOps tm ops = some (m', tm') →
      ClientManager.TsGrow m m' ∧ m'.TsLE (tm'.src tm'.k)
      ∧ tm'.src = tm.src ∧ tm.k ≤ tm'.k := by
  intro ops
  induction ops with
  | nil =>
    intro m tm m' tm' hm hb h
    simp only [ClientManager.runOps, Option.some.injEq, Prod.mk.injEq] at h
    obtain ⟨rfl, rfl⟩ := h
    exact ⟨mgrTsGrow_refl m, hb, rfl, Nat.le_refl _⟩
  | cons op rest ih =>
    intro m tm m' tm' hm hb h
    rw [ClientManager.runOps] at h
    cases ho : m.runOp tm op with
    | none =>
      rw [ho] at h
      exact Option.noConfusion h
    | some r =>
      rw [ho] at h
      obtain ⟨h1, h2, h3, h4⟩ := runOp_mono m tm op r.1 r.2 hm hb ho
      have hm2 : MonoSrc r.2.src := by
        rw [h3]
        exact hm
      obtain ⟨g1, g2, g3, g4⟩ := ih r.1 r.2 m' tm' hm2 h2 h
      refine ⟨mgrTsGrow_trans h1 g1, g2, by rw [g3, h3], by omega⟩

/-- C7. For every sequence of public operations (`updateStates`, `getClientC`,
`setClientTypeRatio`) run with a monotonically non-decreasing time source — on
any registry whose stored timestamps do not exceed the next timer value —
every surviving record's `last_update_` and every per-thread
`last_state_update_` never decreases. -/
theorem c7_timestamps_monotone (m : ClientManager) (tm : Timer) (ops : List Op)
    (m' : ClientManager) (tm' : Timer) (hm : MonoSrc tm.src)
    (hb : m.TsLE (tm.src tm.k)) (hrun : m.runOps tm ops = some (m', tm'))
    (id : String) (c c' : ClientInfo) (hc : m.clients_.lookup id = some c)
    (hc' : m'.clients_.lookup id = some c') :
    c.last_update_ ≤ c'.last_update_
    ∧ ∀ (i : Nat) (s s' : ClientInfo.State),
        c.threads_[i]? = some s → c'.threads_[i]? = some s' →
        s.last_state_update_ ≤ s'.last_state_update_ := by
  obtain ⟨hgrow, -, -, -⟩ := runOps_mono ops m tm m' tm' hm hb hrun
  obtain ⟨c'', hc'', hg⟩ := hgrow id c hc
  rw [hc'] at hc''
  cases hc''
  exact ⟨hg.1, hg.2.2⟩

/-- Record already present in the registry for the C7 witness. -/
def c7Wc : ClientInfo := ⟨"A", 0, 300, 0, true, 5, []⟩

/-- Registry for the C7 witness. -/
def c7Wm : ClientManager := ⟨⟨[1/2, 1/2], [100, 100], 1, 300⟩, [("A", c7Wc)], [0, 0], 0⟩

/-- Constant time source for the C7 witness. -/
def c7Wtm : Timer := ⟨fun _ => 5, 0⟩

/-- One heartbeat for the C7 witness. -/
def c7Wops : List Op := [Op.updateStates "A" []]

/-- Witness for C7: one heartbeat under a constant time source keeps the
record's timestamps non-decreasing. -/
theorem c7_timestamps_monotone_witness :
    c7Wc.last_update_ ≤ c7Wc.last_update_
    ∧ ∀ (i : Nat) (s s' : ClientInfo.State),
        c7Wc.threads_[i]? = some s → c7Wc.threads_[i]? = some s' →
        s.last_state_update_ ≤ s'.last_state_update_ := by
  have hm : MonoSrc c7Wtm.src := fun i j hij => Nat.le_refl 5
  have hb : c7Wm.TsLE (c7Wtm.src c7Wtm.k) := by
    intro p hp
    rcases List.mem_singleton.mp hp with rfl
    exact ⟨Nat.le_refl 5, fun s hs => absurd hs (List.not_mem_nil s)⟩
  have hrun : c7Wm.runOps c7Wtm c7Wops = some (c7Wm, ⟨c7Wtm.src, 1⟩) := rfl
  exact c7_timestamps_monotone c7Wm c7Wtm c7Wops c7Wm ⟨c7Wtm.src, 1⟩ hm hb hrun
    "A" c7Wc c7Wc rfl rfl
